import Mathlib

/-!
Verification development for a small proof-of-work blockchain server
(`server.js`): a `Block` class with a content hash, a `Blockchain` class
with mining (`proofOfWork`), append (`addBlock`) and internal validation
(`Blockchain.validateChain`), a tolerant external validator
(`validateChain(chain, difficulty)`) and an upload parser
(`parseUpChain`).

Modelling conventions:
- The SHA-256 hex digest (`crypto.createHash('sha256')...digest('hex')`)
  is an external primitive; it is modelled as an explicit function
  parameter `H : String → String` threaded through every definition.
- JavaScript values appearing in parsed chain files are modelled by the
  inductive `JVal`; JavaScript numbers are modelled by `JNum`, which is
  either an integer or `NaN` (numeric strings are modelled for integer
  literals; float/hex/exponent literals are outside the model).
- `undefined` is modelled as `Option.none` at the points where the code
  can observe it; object properties holding `undefined` behave exactly
  like absent properties for every operation the code performs (`??`,
  property reads), so they are modelled by absence.
- Unbounded JavaScript loops (`proofOfWork`) take an explicit fuel
  argument and return `Option`; `none` models non-termination within the
  given fuel.
- JavaScript string helpers (`startsWith`, `split`, `trim`, `toLowerCase`,
  number parsing) are implemented over `List Char` by structural
  recursion so that all definitions evaluate inside the kernel.
-/

/-- A JavaScript number: an integer or `NaN`. -/
inductive JNum where
  | nan
  | int (n : Int)
deriving DecidableEq, Repr

/-- The `JNum` rendering as in JS template literals: `NaN` prints as `"NaN"`. -/
def jnumToString : JNum → String
  | .nan => "NaN"
  | .int n => toString n

/-- JS `+ 1` on a number; `NaN + 1 = NaN`. -/
def jnumAdd1 : JNum → JNum
  | .nan => .nan
  | .int n => .int (n + 1)

/-- Adding a natural number to a `JNum` (iterated `+ 1`). -/
def jnumAddNat : JNum → Nat → JNum
  | .nan, _ => .nan
  | .int n, k => .int (n + k)

/-- JS strict equality `===` on numbers: `NaN` is not equal to anything,
including itself. -/
def jnumEq : JNum → JNum → Bool
  | .int a, .int b => a == b
  | _, _ => false

/-- A JavaScript (JSON-like) value. `undefined` is represented by
`Option.none` wherever the code can observe it. -/
inductive JVal where
  | vnull
  | vbool (b : Bool)
  | vnum (n : JNum)
  | vstr (s : String)
  | varr (elems : List JVal)
  | vobj (fields : List (String × JVal))

/-- JS escaping of a character inside a JSON string literal. -/
def escChar (c : Char) : String :=
  if c = '\\' then "\\\\"
  else if c = '"' then "\\\""
  else if c = '\n' then "\\n"
  else if c = '\t' then "\\t"
  else if c = '\r' then "\\r"
  else String.mk [c]

/-- JSON string-literal quoting, as produced by `JSON.stringify` on a
string value. -/
def jsQuote (s : String) : String :=
  "\"" ++ String.join (s.data.map escChar) ++ "\""

mutual
/-- The `JSON.stringify` on a defined value. Note `JSON.stringify(NaN)` and
`JSON.stringify(null)` both produce `"null"`. -/
def jsonStringify : JVal → String
  | .vnull => "null"
  | .vbool b => if b then "true" else "false"
  | .vnum .nan => "null"
  | .vnum (.int n) => toString n
  | .vstr s => jsQuote s
  | .varr xs => "[" ++ String.intercalate "," (jsonStringifyList xs) ++ "]"
  | .vobj fs => "\x7b" ++ String.intercalate "," (jsonStringifyFields fs) ++ "\x7d"

/-- The `JSON.stringify` of the elements of an array. -/
def jsonStringifyList : List JVal → List String
  | [] => []
  | v :: vs => jsonStringify v :: jsonStringifyList vs

/-- The `JSON.stringify` of the key/value pairs of an object. -/
def jsonStringifyFields : List (String × JVal) → List String
  | [] => []
  | (k, v) :: fs => (jsQuote k ++ ":" ++ jsonStringify v) :: jsonStringifyFields fs
end

mutual
/-- JS `String(x)` coercion. Arrays join their elements with `","`
(`null` elements joining as the empty string); plain objects render as
`"[object Object]"`. -/
def jsToString : JVal → String
  | .vnull => "null"
  | .vbool b => if b then "true" else "false"
  | .vnum n => jnumToString n
  | .vstr s => s
  | .varr xs => String.intercalate "," (jsArrElems xs)
  | .vobj _ => "[object Object]"

/-- Element rendering for JS `Array.prototype.join`. -/
def jsArrElems : List JVal → List String
  | [] => []
  | .vnull :: vs => "" :: jsArrElems vs
  | v :: vs => jsToString v :: jsArrElems vs
end

/-- The whitespace characters recognised by the string-trimming model. -/
def isWs (c : Char) : Bool :=
  c == ' ' || c == '\t' || c == '\n' || c == '\r'

/-- JS `String.prototype.trim` over a character list. -/
def chTrim (l : List Char) : List Char :=
  ((l.dropWhile isWs).reverse.dropWhile isWs).reverse

/-- Decimal digit value of a character, if it is a digit. -/
def digitVal? (c : Char) : Option Nat :=
  if '0' ≤ c && c ≤ '9' then some (c.toNat - '0'.toNat) else none

/-- Parse a nonempty all-digit character list as a natural number. -/
def parseDigits : List Char → Option Nat → Option Nat
  | [], acc => acc
  | c :: cs, acc =>
    match digitVal? c with
    | some d => parseDigits cs (some (acc.getD 0 * 10 + d))
    | none => none

/-- Parse an optionally signed decimal integer literal. -/
def parseJsIntChars : List Char → Option Int
  | '-' :: cs => (parseDigits cs none).map (fun n => -(n : Int))
  | '+' :: cs => (parseDigits cs none).map (fun n => (n : Int))
  | cs => (parseDigits cs none).map (fun n => (n : Int))

/-- JS `Number(s)` on a string: trimmed empty string gives `0`,
integer literals parse, anything else gives `NaN` (non-integer numeric
literals are outside the model). -/
def jsStrToNum (s : String) : JNum :=
  let t := chTrim s.data
  if t.isEmpty then .int 0
  else
    match parseJsIntChars t with
    | some n => .int n
    | none => .nan

/-- JS `Number(x)` coercion on a defined value: `Number(null) = 0`,
booleans map to `0`/`1`, arrays and objects go through their string
coercion. -/
def jsToNum : JVal → JNum
  | .vnull => .int 0
  | .vbool b => .int (if b then 1 else 0)
  | .vnum n => n
  | .vstr s => jsStrToNum s
  | .varr xs => jsStrToNum (jsToString (.varr xs))
  | .vobj fs => jsStrToNum (jsToString (.vobj fs))

/-- JS falsiness of a defined value. -/
def jsFalsy : JVal → Bool
  | .vnull => true
  | .vbool b => !b
  | .vnum .nan => true
  | .vnum (.int n) => n == 0
  | .vstr s => s == ""
  | .varr _ => false
  | .vobj _ => false

/-- JS property read `v[k]` (yielding `undefined` off objects; for
duplicate keys the last occurrence wins, as in object construction). -/
def getProp : JVal → String → Option JVal
  | .vobj fs, k => fs.foldl (fun acc kv => if kv.1 == k then some kv.2 else acc) none
  | _, _ => none

/-- JS nullish coalescing `a ?? b`: `b` when `a` is `null`/`undefined`. -/
def nco (a b : Option JVal) : Option JVal :=
  match a with
  | none => b
  | some .vnull => b
  | some v => some v

/-- JS `x ?? d` with a definite default: result of the coalescing chain
ending in a non-nullish default value. -/
def orDefault (x : Option JVal) (d : JVal) : JVal :=
  match x with
  | none => d
  | some .vnull => d
  | some v => v

/-- JS `String.prototype.startsWith`. -/
def jsStartsWith (s pre : String) : Bool :=
  pre.data.isPrefixOf s.data

/-- The `'0'.repeat(difficulty)`: the required hash prefix. -/
def zeros (d : Nat) : String :=
  String.mk (List.replicate d '0')

/-- A `Block` as stored by the server: `index`, `timestamp`, `data`,
`previousHash`, `nonce`, and the cached `hash` field. `data` is the raw
JS value (absent on foreign records lacking a data property). -/
structure Block where
  index : JNum
  timestamp : String
  data : Option JVal
  previousHash : String
  nonce : JNum
  hash : String

/-- The string hashed by `Block.computeHash`:
``${index}|${timestamp}|${JSON.stringify(data)}|${previousHash}|${nonce}``.
`JSON.stringify(undefined)` is `undefined`, which the template literal
renders as `"undefined"`. -/
def hashInput (b : Block) : String :=
  jnumToString b.index ++ "|" ++ b.timestamp ++ "|" ++
    (match b.data with
     | none => "undefined"
     | some v => jsonStringify v) ++ "|" ++
    b.previousHash ++ "|" ++ jnumToString b.nonce

/-- The `Block.computeHash()`: the digest of the serialized current fields
(the stored `hash` field is never read). -/
def computeHash (H : String → String) (b : Block) : String :=
  H (hashInput b)

/-- The `Block` constructor: fields set from the arguments, `nonce = 0`,
then `hash = computeHash()`. -/
def mkBlock (H : String → String) (index : JNum) (timestamp : String)
    (data : Option JVal) (previousHash : String) : Block :=
  let b : Block := ⟨index, timestamp, data, previousHash, .int 0, ""⟩
  { b with hash := computeHash H b }

/-- The mining loop of `Blockchain.proofOfWork`: recompute the hash from
the current nonce; stop when it starts with the target prefix, else
increment the nonce by 1 and retry. `fuel` bounds the unbounded JS
loop; `none` models running out of fuel (non-termination). -/
def powLoop (H : String → String) (tp : String) : Nat → Block → Option Block
  | 0, _ => none
  | fuel + 1, b =>
    let b' := { b with hash := computeHash H b }
    if jsStartsWith b'.hash tp then some b'
    else powLoop H tp fuel { b' with nonce := jnumAdd1 b'.nonce }

/-- The `Blockchain.proofOfWork(block)` with the chain's difficulty. -/
def proofOfWork (H : String → String) (difficulty : Nat) (fuel : Nat)
    (b : Block) : Option Block :=
  powLoop H (zeros difficulty) fuel b

/-- The `Blockchain`: a fixed difficulty and the ordered chain. -/
structure Blockchain where
  difficulty : Nat
  chain : List Block

/-- The `creatGenBlock()`: a block with index 0, the genesis payload and
previous hash `"0"`, run through proof of work. -/
def creatGenBlock (H : String → String) (fuel : Nat) (difficulty : Nat)
    (ts : String) : Option Block :=
  proofOfWork H difficulty fuel
    (mkBlock H (.int 0) ts (some (.vobj [("message", .vstr "Genesis Block")])) "0")

/-- The `Blockchain` constructor: difficulty plus a freshly mined genesis
block. -/
def mkBlockchain (H : String → String) (fuel : Nat) (difficulty : Nat)
    (ts : String) : Option Blockchain :=
  (creatGenBlock H fuel difficulty ts).map fun g => ⟨difficulty, [g]⟩

/-- The `getLastBlock()`: `chain[chain.length - 1]` (absent on an empty
chain). -/
def getLastBlock (bc : Blockchain) : Option Block :=
  bc.chain.getLast?

/-- The `addBlock(data)`: build a block with `index = last.index + 1`, the
given timestamp and data, `previousHash = last.hash`; mine it; push it;
return it. `none` models an empty chain (a JS crash) or mining running
out of fuel. -/
def addBlock (H : String → String) (fuel : Nat) (bc : Blockchain)
    (data : Option JVal) (ts : String) : Option (Blockchain × Block) :=
  match bc.chain.getLast? with
  | none => none
  | some latest =>
    let nb := mkBlock H (jnumAdd1 latest.index) ts data latest.hash
    (proofOfWork H bc.difficulty fuel nb).map fun mined =>
      (⟨bc.difficulty, bc.chain ++ [mined]⟩, mined)

/-- Per-block report entry of the internal `Blockchain.validateChain`. -/
structure DetailInt where
  index : JNum
  isHashValid : Bool
  isPowValid : Bool
  isPrevValid : Bool
  isIndexValid : Bool
  blockValid : Bool
  cascaded : Bool
deriving DecidableEq, Repr

/-- Per-block report entry of the external `validateChain`, with the
extra `matchesServerGenesis` flag. -/
structure DetailExt where
  index : JNum
  isHashValid : Bool
  isPowValid : Bool
  isPrevValid : Bool
  isIndexValid : Bool
  matchesServerGenesis : Bool
  blockValid : Bool
  cascaded : Bool
deriving DecidableEq, Repr

/-- A validation report: `isValid`, the failed indices in encounter
order, and the per-block details. -/
structure VRes (δ : Type) where
  isValid : Bool
  invalidBlockIndices : List JNum
  details : List δ
deriving DecidableEq, Repr

/-- Internal check: recomputed hash equals the stored `hash`. -/
def chkHash (H : String → String) (b : Block) : Bool :=
  computeHash H b == b.hash

/-- Internal check: stored `hash` starts with the target prefix. -/
def chkPow (tp : String) (b : Block) : Bool :=
  jsStartsWith b.hash tp

/-- Internal check: `i === 0 ? index === 0 : index === chain[i-1].index + 1`. -/
def chkIndex (pos : Nat) (prevOp : Option Block) (b : Block) : Bool :=
  if pos == 0 then jnumEq b.index (.int 0)
  else
    match prevOp with
    | some p => jnumEq b.index (jnumAdd1 p.index)
    | none => false

/-- Internal check: at position 0 `previousHash === '0'`; later,
`previousHash === prev.computeHash()` — the recomputed hash of the
previous block, not its stored `hash` field. -/
def chkPrev (H : String → String) (pos : Nat) (prevOp : Option Block)
    (b : Block) : Bool :=
  if pos == 0 then b.previousHash == "0"
  else
    match prevOp with
    | some p => b.previousHash == computeHash H p
    | none => false

/-- The loop body of `Blockchain.validateChain`, carrying the position,
the previous block and the cascade flag. -/
def validateIntGo (H : String → String) (tp : String) :
    Nat → Option Block → Bool → List Block → VRes DetailInt
  | _, _, _, [] => ⟨true, [], []⟩
  | pos, prevOp, cascade, b :: rest =>
    let hv := chkHash H b
    let pv := chkPow tp b
    let iv := chkIndex pos prevOp b
    let prv := chkPrev H pos prevOp b
    let bv := !cascade && hv && pv && prv && iv
    let r := validateIntGo H tp (pos + 1) (some b) (cascade || !bv) rest
    ⟨bv && r.isValid,
     (if bv then [] else [b.index]) ++ r.invalidBlockIndices,
     ⟨b.index, hv, pv, prv, iv, bv, cascade⟩ :: r.details⟩

/-- The `Blockchain.validateChain()` over the live chain. -/
def Blockchain.validateChain (H : String → String) (bc : Blockchain) :
    VRes DetailInt :=
  validateIntGo H (zeros bc.difficulty) 0 none false bc.chain

/-- The `chain[i] || {}`: a falsy record is replaced by the empty object. -/
def rawOr (v : JVal) : JVal :=
  if jsFalsy v then .vobj [] else v

/-- The `prevOp` as a JS value: an absent previous element reads as
`undefined`, which behaves like `null` for every operation performed on
it (`?.` reads and `|| {}`). -/
def prevElemOr (prevOp : Option JVal) : JVal :=
  prevOp.getD .vnull

/-- The `raw.previousHash ?? raw.prevHash ?? raw.prev_hash ?? raw.previous_hash`. -/
def prevHashRawOf (r : JVal) : Option JVal :=
  nco (getProp r "previousHash")
    (nco (getProp r "prevHash")
      (nco (getProp r "prev_hash") (getProp r "previous_hash")))

/-- The `raw.hash ?? raw.Hash ?? raw.HASH`. -/
def hashRawOf (r : JVal) : Option JVal :=
  nco (getProp r "hash") (nco (getProp r "Hash") (getProp r "HASH"))

/-- The `raw.data ?? raw.Data`. -/
def dataRawOf (r : JVal) : Option JVal :=
  nco (getProp r "data") (getProp r "Data")

/-- The `raw.index ?? raw.Index`. -/
def indexRawOf (r : JVal) : Option JVal :=
  nco (getProp r "index") (getProp r "Index")

/-- The `raw.nonce ?? raw.Nonce`. -/
def nonceRawOf (r : JVal) : Option JVal :=
  nco (getProp r "nonce") (getProp r "Nonce")

/-- The `raw.timestamp ?? raw.Timestamp ?? raw.time`. -/
def timestampRawOf (r : JVal) : Option JVal :=
  nco (getProp r "timestamp") (nco (getProp r "Timestamp") (getProp r "time"))

/-- The `Number(x)` where `x` may be `undefined` (`Number(undefined) = NaN`). -/
def numOfOpt : Option JVal → JNum
  | none => .nan
  | some v => jsToNum v

/-- The `const bIndex = Number(indexRaw)`. -/
def bIndexOf (r : JVal) : JNum :=
  numOfOpt (indexRawOf r)

/-- The `const prevHashStr = String(prevHashRaw ?? '')`. -/
def prevHashStrOf (r : JVal) : String :=
  jsToString (orDefault (prevHashRawOf r) (.vstr ""))

/-- The `const hashStr = String(hashRaw ?? '')`. -/
def hashStrOf (r : JVal) : String :=
  jsToString (orDefault (hashRawOf r) (.vstr ""))

/-- The `const timestampStr = String(timestampRaw ?? '')` (the
`instanceof Date` branch cannot arise from the JSON-schema parsers and
is outside the model). -/
def timestampStrOf (r : JVal) : String :=
  jsToString (orDefault (timestampRawOf r) (.vstr ""))

/-- The `const nonceNum = Number(nonceRaw ?? 0)`. -/
def nonceNumOf (r : JVal) : JNum :=
  jsToNum (orDefault (nonceRawOf r) (.vnum (.int 0)))

/-- The temporary block the external validator rebuilds from the current
record's alias-tolerant coerced fields, with its nonce overwritten. -/
def tempOf (H : String → String) (r : JVal) : Block :=
  { mkBlock H (bIndexOf r) (timestampStrOf r) (dataRawOf r) (prevHashStrOf r) with
      nonce := nonceNumOf r }

/-- The temporary block rebuilt from the previous record for the
`isPrevValid` check — reading only the canonical lowercase keys
(`index`, `timestamp`, `data`, `previousHash`, `nonce`). -/
def prevTempOf (H : String → String) (pe : JVal) : Block :=
  let p := rawOr pe
  { mkBlock H (numOfOpt (getProp p "index"))
      (jsToString (orDefault (getProp p "timestamp") (.vstr "")))
      (getProp p "data")
      (jsToString (orDefault (getProp p "previousHash") (.vstr ""))) with
      nonce := jsToNum (orDefault (getProp p "nonce") (.vnum (.int 0))) }

/-- The `Number(chain[i-1]?.index)`: the previous record's canonical `index`
read, coerced to a number. -/
def prevIndexOf (pe : JVal) : JNum :=
  numOfOpt (getProp pe "index")

/-- External check: recomputed hash of the rebuilt block equals the
coerced `hash` string. -/
def extHashChk (H : String → String) (r : JVal) : Bool :=
  computeHash H (tempOf H r) == hashStrOf r

/-- External check: coerced `hash` string starts with the target prefix. -/
def extPowChk (tp : String) (r : JVal) : Bool :=
  jsStartsWith (hashStrOf r) tp

/-- External check:
`i === 0 ? bIndex === 0 : bIndex === Number(chain[i-1]?.index) + 1`. -/
def extIndexChk (pos : Nat) (prevOp : Option JVal) (r : JVal) : Bool :=
  if pos == 0 then jnumEq (bIndexOf r) (.int 0)
  else jnumEq (bIndexOf r) (jnumAdd1 (prevIndexOf (prevElemOr prevOp)))

/-- External check: at position 0 `prevHashStr === '0'`; later,
`prevHashStr === prevTemp.computeHash()` where `prevTemp` is rebuilt
from the previous record's canonical fields. -/
def extPrevChk (H : String → String) (pos : Nat) (prevOp : Option JVal)
    (r : JVal) : Bool :=
  if pos == 0 then prevHashStrOf r == "0"
  else prevHashStrOf r == computeHash H (prevTempOf H (prevElemOr prevOp))

/-- The `matchesServerGenesis`:
`i !== 0 || blockchain.chain.length === 0 ? true : hashStr === blockchain.chain[0].hash`. -/
def msgChk (sc : List Block) (pos : Nat) (hs : String) : Bool :=
  match sc with
  | [] => true
  | g :: _ => if pos == 0 then hs == g.hash else true

/-- The loop body of the external `validateChain`, carrying the
position, the previous raw record and the cascade flag. `sc` is the
live server chain consulted by `matchesServerGenesis`. -/
def validateExtGo (H : String → String) (tp : String) (sc : List Block) :
    Nat → Option JVal → Bool → List JVal → VRes DetailExt
  | _, _, _, [] => ⟨true, [], []⟩
  | pos, prevOp, cascade, e :: rest =>
    let raw := rawOr e
    let hv := extHashChk H raw
    let pv := extPowChk tp raw
    let iv := extIndexChk pos prevOp raw
    let prv := extPrevChk H pos prevOp raw
    let msg := msgChk sc pos (hashStrOf raw)
    let bv := !cascade && hv && pv && prv && iv && msg
    let r := validateExtGo H tp sc (pos + 1) (some e) (cascade || !bv) rest
    ⟨bv && r.isValid,
     (if bv then [] else [bIndexOf raw]) ++ r.invalidBlockIndices,
     ⟨bIndexOf raw, hv, pv, prv, iv, msg, bv, cascade⟩ :: r.details⟩

/-- The external `validateChain(chain, difficulty)` over a sequence of
parsed records, relative to the live server chain `sc`. -/
def validateChainExt (H : String → String) (sc : List Block)
    (difficulty : Nat) (chain : List JVal) : VRes DetailExt :=
  validateExtGo H (zeros difficulty) sc 0 none false chain

/-- Splitting an uploaded text file on the `---` section delimiter
(the `\n---\n` separator of the line-oriented format; CRLF variants are
outside the model, which covers LF documents). -/
def splitSections : List Char → List Char → List (List Char)
  | acc, '\n' :: '-' :: '-' :: '-' :: '\n' :: rest =>
    acc.reverse :: splitSections [] rest
  | acc, c :: rest => splitSections (c :: acc) rest
  | acc, [] => [acc.reverse]

/-- Splitting a section into its lines. -/
def splitLines : List Char → List Char → List (List Char)
  | acc, '\n' :: rest => acc.reverse :: splitLines [] rest
  | acc, c :: rest => splitLines (c :: acc) rest
  | acc, [] => [acc.reverse]

/-- Lower-casing of an ASCII character (for the `i` regex flag). -/
def chLower (c : Char) : Char :=
  if 'A' ≤ c && c ≤ 'Z' then Char.ofNat (c.toNat + 32) else c

/-- The `getLine(label)`: the first line matching `/^label:\s*(.*)$/mi`,
with the captured value trimmed. (The JS `\s*` could swallow the line
break when the value is empty; the model reads within the line.) -/
def getLineVal (s : List Char) (label : String) : Option String :=
  (splitLines [] s).findSome? fun line =>
    let lab := label.data.map chLower ++ [':']
    if lab.isPrefixOf (line.map chLower) then
      some (String.mk (chTrim (line.drop lab.length)))
    else none

/-- One `---` section of the fallback text format: skipped when blank or
when the `Index`/`Nonce` lines are missing; otherwise a record with the
coerced fields (`Data` goes through `JSON.parse` when it parses, else
stays the raw string; a missing `Data` line leaves the field absent). -/
def txtSectionBlock (jsonParse : String → Option JVal) (sec : List Char) :
    Option JVal :=
  let s := chTrim sec
  if s.isEmpty then none
  else
    match getLineVal s "Index", getLineVal s "Nonce" with
    | some istr, some nstr =>
      let dataVal : Option JVal :=
        match getLineVal s "Data" with
        | none => none
        | some ds =>
          match jsonParse ds with
          | some v => some v
          | none => some (.vstr ds)
      some (.vobj
        ([("index", .vnum (jsStrToNum istr))]
          ++ (match getLineVal s "Timestamp" with
              | some t => [("timestamp", JVal.vstr t)]
              | none => [])
          ++ (match getLineVal s "Previous Hash" with
              | some p => [("previousHash", JVal.vstr p)]
              | none => [])
          ++ (match getLineVal s "Hash" with
              | some h => [("hash", JVal.vstr h)]
              | none => [])
          ++ (match dataVal with
              | some dv => [("data", dv)]
              | none => [])
          ++ [("nonce", .vnum (jsStrToNum nstr))]))
    | _, _ => none

/-- The blocks extracted by the line-oriented fallback parser. -/
def txtBlocks (jsonParse : String → Option JVal) (raw : String) :
    List JVal :=
  (splitSections [] raw.data).filterMap (txtSectionBlock jsonParse)

/-- The chain extracted from one structured-parse attempt: a top-level
array, or a truthy document with an array `chain` property. -/
def chainOfDoc : Option JVal → Option (List JVal)
  | some (.varr xs) => some xs
  | some v =>
    if jsFalsy v then none
    else
      match getProp v "chain" with
      | some (.varr xs) => some xs
      | _ => none
  | none => none

/-- The `parseUpChain`: try `JSON.parse`, then `yaml.load`, then the
line-oriented fallback; error only when all three yield nothing. The
structured parsers are external collaborators modelled as function
parameters returning `none` on a parse exception. -/
def parseUpChain (jsonParse yamlLoad : String → Option JVal)
    (raw : String) : Except String (List JVal) :=
  match chainOfDoc (jsonParse raw) with
  | some c => .ok c
  | none =>
    match chainOfDoc (yamlLoad raw) with
    | some c => .ok c
    | none =>
      let blocks := txtBlocks jsonParse raw
      if blocks.length > 0 then .ok blocks
      else .error "Unsupported or malformed blockchain file"

/-- The hash input of a block with a given nonce substituted (the stored
`hash` and `nonce` fields do not influence it). -/
def nonceInput (b : Block) (n : JNum) : String :=
  hashInput ⟨b.index, b.timestamp, b.data, b.previousHash, n, b.hash⟩

/-- The identity function, used as a concrete digest instance in witness
evaluations (it is injective, as a collision-free digest is assumed to
be). -/
def idHash : String → String := fun s => s

/-- Concrete genesis block mined with `idHash` at difficulty 0. -/
def exG : Block :=
  ⟨.int 0, "t0", some (.vobj [("message", .vstr "Genesis Block")]), "0",
    .int 0, "0|t0|\x7b\"message\":\"Genesis Block\"\x7d|0|0"⟩

/-- Concrete block appended after `exG` with `data = null`. -/
def exB1 : Block :=
  ⟨.int 1, "t1", some .vnull,
    "0|t0|\x7b\"message\":\"Genesis Block\"\x7d|0|0", .int 0,
    "1|t1|null|0|t0|\x7b\"message\":\"Genesis Block\"\x7d|0|0|0"⟩

/-- The `exB1` with its `data` field tampered from `null` to `NaN`. -/
def exB1n : Block := { exB1 with data := some (.vnum .nan) }

/-- The `exG` with its `hash` field tampered to `"Q"`. -/
def exGQ : Block := { exG with hash := "Q" }

/-- Concrete foreign record whose four internal checks pass under
`idHash` at difficulty 0 but whose hash differs from the server genesis
hash used in the C8 scenario. -/
def exR0 : JVal :=
  .vobj [("index", .vnum (.int 0)), ("timestamp", .vstr "t"),
    ("data", .vstr "D"), ("previousHash", .vstr "0"),
    ("nonce", .vnum (.int 0)), ("hash", .vstr "0|t|\"D\"|0|0")]

/-- First record of the alias-only chain of claim C9: every field is
supplied under an alias key (`Index`, `time`, `Data`, `prev_hash`,
`Nonce`, `Hash`) and the `Hash` value is the digest of the record's own
alias-read serialization. -/
def c9r0 (H : String → String) : JVal :=
  .vobj [("Index", .vnum (.int 0)), ("time", .vstr "T0"),
    ("Data", .vstr "d0"), ("prev_hash", .vstr "0"),
    ("Nonce", .vnum (.int 0)),
    ("Hash", .vstr (H "0|T0|\"d0\"|0|0"))]

/-- Second record of the alias-only chain of claim C9: internally
consistent with `c9r0` under alias reads (its `prev_hash` is the digest
of `c9r0`'s alias-read serialization and its `Index` is 1). -/
def c9r1 (H : String → String) : JVal :=
  .vobj [("Index", .vnum (.int 1)), ("time", .vstr "T1"),
    ("Data", .vstr "d1"),
    ("prev_hash", .vstr (H "0|T0|\"d0\"|0|0")),
    ("Nonce", .vnum (.int 0)),
    ("Hash", .vstr (H ("1|T1|\"d1\"|" ++ H "0|T0|\"d0\"|0|0" ++ "|" ++ "0")))]

/-! Helper lemmas: internal validator -/

theorem validateIntGo_length (H : String → String) (tp : String)
    (l : List Block) : ∀ pos prevOp cascade,
    (validateIntGo H tp pos prevOp cascade l).details.length = l.length := by
  induction l with
  | nil => intro pos prevOp cascade; rfl
  | cons b rest ih =>
    intro pos prevOp cascade
    simp [validateIntGo, ih]

theorem intGo_head (H : String → String) (tp : String) (pos : Nat)
    (prevOp : Option Block) (cascade : Bool) (a : Block) (rest : List Block) :
    (validateIntGo H tp pos prevOp cascade (a :: rest)).details[0]? =
      some ⟨a.index, chkHash H a, chkPow tp a, chkPrev H pos prevOp a,
        chkIndex pos prevOp a,
        !cascade && chkHash H a && chkPow tp a && chkPrev H pos prevOp a &&
          chkIndex pos prevOp a, cascade⟩ := by simp [validateIntGo]

theorem intGo_flags (H : String → String) (tp : String) (l : List Block) :
    ∀ (pos : Nat) (prevOp : Option Block) (cascade : Bool) (k : Nat) (b : Block),
    l[k]? = some b →
    ∃ dt : DetailInt,
      (validateIntGo H tp pos prevOp cascade l).details[k]? = some dt ∧
      dt.index = b.index ∧
      dt.isHashValid = chkHash H b ∧
      dt.isPowValid = chkPow tp b ∧
      dt.isPrevValid = chkPrev H (pos + k) (if k = 0 then prevOp else l[k-1]?) b ∧
      dt.isIndexValid = chkIndex (pos + k) (if k = 0 then prevOp else l[k-1]?) b := by
  induction l with
  | nil => intro pos prevOp cascade k b hk; simp at hk
  | cons a rest ih =>
    intro pos prevOp cascade k b hk
    match k with
    | 0 =>
      simp only [List.getElem?_cons_zero, Option.some.injEq] at hk
      subst hk
      exact ⟨_, intGo_head H tp pos prevOp cascade a rest, rfl, rfl, rfl,
        by simp, by simp⟩
    | k' + 1 =>
      simp only [List.getElem?_cons_succ] at hk
      obtain ⟨dt, hdt, hidx, hh, hp, hprev, hiv⟩ :=
        ih (pos + 1) (some a)
          (cascade || !(!cascade && chkHash H a && chkPow tp a &&
            chkPrev H pos prevOp a && chkIndex pos prevOp a)) k' b hk
      refine ⟨dt, ?_, hidx, hh, hp, ?_, ?_⟩
      · simpa [validateIntGo] using hdt
      · rw [hprev]
        match k' with
        | 0 => simp
        | j + 1 =>
          have harith : pos + 1 + (j + 1) = pos + (j + 1 + 1) := by omega
          simp [harith]
      · rw [hiv]
        match k' with
        | 0 => simp
        | j + 1 =>
          have harith : pos + 1 + (j + 1) = pos + (j + 1 + 1) := by omega
          simp [harith]

theorem intGo_bv (H : String → String) (tp : String) (l : List Block) :
    ∀ (pos : Nat) (prevOp : Option Block) (cascade : Bool) (k : Nat)
      (dt : DetailInt),
    (validateIntGo H tp pos prevOp cascade l).details[k]? = some dt →
    dt.blockValid = (!dt.cascaded && dt.isHashValid && dt.isPowValid &&
      dt.isPrevValid && dt.isIndexValid) := by
  induction l with
  | nil => intro pos prevOp cascade k dt h; simp [validateIntGo] at h
  | cons a rest ih =>
    intro pos prevOp cascade k dt h
    match k with
    | 0 =>
      simp only [validateIntGo, List.getElem?_cons_zero, Option.some.injEq] at h
      subst h
      rfl
    | k' + 1 =>
      simp only [validateIntGo, List.getElem?_cons_succ] at h
      exact ih _ _ _ _ _ h

theorem intGo_cascade (H : String → String) (tp : String) (l : List Block) :
    ∀ (pos : Nat) (prevOp : Option Block) (cascade : Bool) (k : Nat)
      (dt : DetailInt),
    (validateIntGo H tp pos prevOp cascade l).details[k]? = some dt →
    (dt.cascaded = true ↔ cascade = true ∨ ∃ j, j < k ∧
      ∃ dj : DetailInt,
        (validateIntGo H tp pos prevOp cascade l).details[j]? = some dj ∧
        dj.blockValid = false) := by
  induction l with
  | nil => intro pos prevOp cascade k dt h; simp [validateIntGo] at h
  | cons a rest ih =>
    intro pos prevOp cascade k dt h
    match k with
    | 0 =>
      simp only [validateIntGo, List.getElem?_cons_zero, Option.some.injEq] at h
      subst h
      simp
    | k' + 1 =>
      simp only [validateIntGo, List.getElem?_cons_succ] at h
      have hih := ih (pos + 1) (some a)
        (cascade || !(!cascade && chkHash H a && chkPow tp a &&
          chkPrev H pos prevOp a && chkIndex pos prevOp a)) k' dt h
      rw [hih]
      constructor
      · rintro (hc | ⟨j, hj, dj, hdj, hbv⟩)
        · rw [Bool.or_eq_true] at hc
          rcases hc with h1 | h1
          · exact Or.inl h1
          · refine Or.inr ⟨0, by omega, ?_⟩
            refine ⟨_, intGo_head H tp pos prevOp cascade a rest, ?_⟩
            revert h1
            cases (!cascade && chkHash H a && chkPow tp a &&
              chkPrev H pos prevOp a && chkIndex pos prevOp a) <;> simp
        · refine Or.inr ⟨j + 1, by omega, dj, ?_, hbv⟩
          simpa [validateIntGo] using hdj
      · rintro (hc | ⟨j, hj, dj, hdj, hbv⟩)
        · exact Or.inl (by simp [hc])
        · match j with
          | 0 =>
            simp only [validateIntGo, List.getElem?_cons_zero,
              Option.some.injEq] at hdj
            subst hdj
            simp only [] at hbv
            exact Or.inl (by simp [hbv])
          | j' + 1 =>
            simp only [validateIntGo, List.getElem?_cons_succ] at hdj
            exact Or.inr ⟨j', by omega, dj, hdj, hbv⟩

theorem intGo_isValid (H : String → String) (tp : String) (l : List Block) :
    ∀ pos prevOp cascade,
    (validateIntGo H tp pos prevOp cascade l).isValid =
      (validateIntGo H tp pos prevOp cascade l).details.all
        (fun dt => dt.blockValid) := by
  induction l with
  | nil => intro pos prevOp cascade; rfl
  | cons a rest ih =>
    intro pos prevOp cascade
    simp only [validateIntGo, List.all_cons]
    rw [ih]

theorem intGo_indices (H : String → String) (tp : String) (l : List Block) :
    ∀ pos prevOp cascade,
    (validateIntGo H tp pos prevOp cascade l).invalidBlockIndices =
      ((validateIntGo H tp pos prevOp cascade l).details.filter
        (fun dt => !dt.blockValid)).map (fun dt => dt.index) := by
  induction l with
  | nil => intro pos prevOp cascade; rfl
  | cons a rest ih =>
    intro pos prevOp cascade
    by_cases hbv : (!cascade && chkHash H a && chkPow tp a &&
        chkPrev H pos prevOp a && chkIndex pos prevOp a) = true
    · simp only [validateIntGo]
      rw [List.filter_cons]
      simp [hbv, ih]
    · simp only [validateIntGo]
      rw [List.filter_cons]
      simp only [Bool.not_eq_true] at hbv
      simp [hbv, ih]

/-! Helper lemmas: external validator -/

theorem validateExtGo_length (H : String → String) (tp : String)
    (sc : List Block) (l : List JVal) : ∀ pos prevOp cascade,
    (validateExtGo H tp sc pos prevOp cascade l).details.length = l.length := by
  induction l with
  | nil => intro pos prevOp cascade; rfl
  | cons e rest ih =>
    intro pos prevOp cascade
    simp [validateExtGo, ih]

theorem extGo_head (H : String → String) (tp : String) (sc : List Block)
    (pos : Nat) (prevOp : Option JVal) (cascade : Bool) (a : JVal)
    (rest : List JVal) :
    (validateExtGo H tp sc pos prevOp cascade (a :: rest)).details[0]? =
      some ⟨bIndexOf (rawOr a), extHashChk H (rawOr a), extPowChk tp (rawOr a),
        extPrevChk H pos prevOp (rawOr a), extIndexChk pos prevOp (rawOr a),
        msgChk sc pos (hashStrOf (rawOr a)),
        !cascade && extHashChk H (rawOr a) && extPowChk tp (rawOr a) &&
          extPrevChk H pos prevOp (rawOr a) && extIndexChk pos prevOp (rawOr a) &&
          msgChk sc pos (hashStrOf (rawOr a)), cascade⟩ := by
  simp [validateExtGo]

theorem extGo_flags (H : String → String) (tp : String) (sc : List Block)
    (l : List JVal) :
    ∀ (pos : Nat) (prevOp : Option JVal) (cascade : Bool) (k : Nat) (e : JVal),
    l[k]? = some e →
    ∃ dt : DetailExt,
      (validateExtGo H tp sc pos prevOp cascade l).details[k]? = some dt ∧
      dt.index = bIndexOf (rawOr e) ∧
      dt.isHashValid = extHashChk H (rawOr e) ∧
      dt.isPowValid = extPowChk tp (rawOr e) ∧
      dt.isPrevValid = extPrevChk H (pos + k)
        (if k = 0 then prevOp else l[k-1]?) (rawOr e) ∧
      dt.isIndexValid = extIndexChk (pos + k)
        (if k = 0 then prevOp else l[k-1]?) (rawOr e) ∧
      dt.matchesServerGenesis = msgChk sc (pos + k) (hashStrOf (rawOr e)) := by
  induction l with
  | nil => intro pos prevOp cascade k e hk; simp at hk
  | cons a rest ih =>
    intro pos prevOp cascade k e hk
    match k with
    | 0 =>
      simp only [List.getElem?_cons_zero, Option.some.injEq] at hk
      subst hk
      exact ⟨_, extGo_head H tp sc pos prevOp cascade a rest, rfl, rfl, rfl,
        by simp, by simp, by simp⟩
    | k' + 1 =>
      simp only [List.getElem?_cons_succ] at hk
      obtain ⟨dt, hdt, hidx, hh, hp, hprev, hiv, hmsg⟩ :=
        ih (pos + 1) (some a)
          (cascade || !(!cascade && extHashChk H (rawOr a) && extPowChk tp (rawOr a) &&
            extPrevChk H pos prevOp (rawOr a) && extIndexChk pos prevOp (rawOr a) &&
            msgChk sc pos (hashStrOf (rawOr a)))) k' e hk
      refine ⟨dt, ?_, hidx, hh, hp, ?_, ?_, ?_⟩
      · simpa [validateExtGo] using hdt
      · rw [hprev]
        match k' with
        | 0 => simp
        | j + 1 =>
          have harith : pos + 1 + (j + 1) = pos + (j + 1 + 1) := by omega
          simp [harith]
      · rw [hiv]
        match k' with
        | 0 => simp
        | j + 1 =>
          have harith : pos + 1 + (j + 1) = pos + (j + 1 + 1) := by omega
          simp [harith]
      · rw [hmsg]
        have harith : pos + 1 + k' = pos + (k' + 1) := by omega
        rw [harith]

theorem extGo_bv (H : String → String) (tp : String) (sc : List Block)
    (l : List JVal) :
    ∀ (pos : Nat) (prevOp : Option JVal) (cascade : Bool) (k : Nat)
      (dt : DetailExt),
    (validateExtGo H tp sc pos prevOp cascade l).details[k]? = some dt →
    dt.blockValid = (!dt.cascaded && dt.isHashValid && dt.isPowValid &&
      dt.isPrevValid && dt.isIndexValid && dt.matchesServerGenesis) := by
  induction l with
  | nil => intro pos prevOp cascade k dt h; simp [validateExtGo] at h
  | cons a rest ih =>
    intro pos prevOp cascade k dt h
    match k with
    | 0 =>
      simp only [validateExtGo, List.getElem?_cons_zero, Option.some.injEq] at h
      subst h
      rfl
    | k' + 1 =>
      simp only [validateExtGo, List.getElem?_cons_succ] at h
      exact ih _ _ _ _ _ h

theorem extGo_cascade (H : String → String) (tp : String) (sc : List Block)
    (l : List JVal) :
    ∀ (pos : Nat) (prevOp : Option JVal) (cascade : Bool) (k : Nat)
      (dt : DetailExt),
    (validateExtGo H tp sc pos prevOp cascade l).details[k]? = some dt →
    (dt.cascaded = true ↔ cascade = true ∨ ∃ j, j < k ∧
      ∃ dj : DetailExt,
        (validateExtGo H tp sc pos prevOp cascade l).details[j]? = some dj ∧
        dj.blockValid = false) := by
  induction l with
  | nil => intro pos prevOp cascade k dt h; simp [validateExtGo] at h
  | cons a rest ih =>
    intro pos prevOp cascade k dt h
    match k with
    | 0 =>
      simp only [validateExtGo, List.getElem?_cons_zero, Option.some.injEq] at h
      subst h
      simp
    | k' + 1 =>
      simp only [validateExtGo, List.getElem?_cons_succ] at h
      have hih := ih (pos + 1) (some a)
        (cascade || !(!cascade && extHashChk H (rawOr a) && extPowChk tp (rawOr a) &&
          extPrevChk H pos prevOp (rawOr a) && extIndexChk pos prevOp (rawOr a) &&
          msgChk sc pos (hashStrOf (rawOr a)))) k' dt h
      rw [hih]
      constructor
      · rintro (hc | ⟨j, hj, dj, hdj, hbv⟩)
        · rw [Bool.or_eq_true] at hc
          rcases hc with h1 | h1
          · exact Or.inl h1
          · refine Or.inr ⟨0, by omega, ?_⟩
            refine ⟨_, extGo_head H tp sc pos prevOp cascade a rest, ?_⟩
            revert h1
            cases (!cascade && extHashChk H (rawOr a) && extPowChk tp (rawOr a) &&
              extPrevChk H pos prevOp (rawOr a) && extIndexChk pos prevOp (rawOr a) &&
              msgChk sc pos (hashStrOf (rawOr a))) <;> simp
        · refine Or.inr ⟨j + 1, by omega, dj, ?_, hbv⟩
          simpa [validateExtGo] using hdj
      · rintro (hc | ⟨j, hj, dj, hdj, hbv⟩)
        · exact Or.inl (by simp [hc])
        · match j with
          | 0 =>
            simp only [validateExtGo, List.getElem?_cons_zero,
              Option.some.injEq] at hdj
            subst hdj
            simp only [] at hbv
            exact Or.inl (by simp [hbv])
          | j' + 1 =>
            simp only [validateExtGo, List.getElem?_cons_succ] at hdj
            exact Or.inr ⟨j', by omega, dj, hdj, hbv⟩

theorem extGo_isValid (H : String → String) (tp : String) (sc : List Block)
    (l : List JVal) : ∀ pos prevOp cascade,
    (validateExtGo H tp sc pos prevOp cascade l).isValid =
      (validateExtGo H tp sc pos prevOp cascade l).details.all
        (fun dt => dt.blockValid) := by
  induction l with
  | nil => intro pos prevOp cascade; rfl
  | cons a rest ih =>
    intro pos prevOp cascade
    simp only [validateExtGo, List.all_cons]
    rw [ih]

theorem extGo_indices (H : String → String) (tp : String) (sc : List Block)
    (l : List JVal) : ∀ pos prevOp cascade,
    (validateExtGo H tp sc pos prevOp cascade l).invalidBlockIndices =
      ((validateExtGo H tp sc pos prevOp cascade l).details.filter
        (fun dt => !dt.blockValid)).map (fun dt => dt.index) := by
  induction l with
  | nil => intro pos prevOp cascade; rfl
  | cons a rest ih =>
    intro pos prevOp cascade
    by_cases hbv : (!cascade && extHashChk H (rawOr a) && extPowChk tp (rawOr a) &&
        extPrevChk H pos prevOp (rawOr a) && extIndexChk pos prevOp (rawOr a) &&
        msgChk sc pos (hashStrOf (rawOr a))) = true
    · simp only [validateExtGo]
      rw [List.filter_cons]
      simp [hbv, ih]
    · simp only [validateExtGo]
      rw [List.filter_cons]
      simp only [Bool.not_eq_true] at hbv
      simp [hbv, ih]

/-! Helper lemmas: proof of work -/

theorem jnumAddNat_zero (n : JNum) : jnumAddNat n 0 = n := by
  cases n <;> simp [jnumAddNat]

theorem jnumAddNat_add1 (n : JNum) (k : Nat) :
    jnumAddNat (jnumAdd1 n) k = jnumAddNat n (k + 1) := by
  cases n with
  | nan => rfl
  | int m =>
    simp only [jnumAdd1, jnumAddNat, JNum.int.injEq]
    push_cast
    ring

theorem nonceInput_update (b : Block) (x : String) (y : JNum) (m : JNum) :
    nonceInput { b with hash := x, nonce := y } m = nonceInput b m := rfl

theorem nonceInput_self (b : Block) : nonceInput b b.nonce = hashInput b := rfl

theorem powLoop_spec (H : String → String) (tp : String) :
    ∀ (fuel : Nat) (b b' : Block), powLoop H tp fuel b = some b' →
    jsStartsWith b'.hash tp = true ∧
    b'.hash = computeHash H b' ∧
    b'.index = b.index ∧ b'.timestamp = b.timestamp ∧ b'.data = b.data ∧
    b'.previousHash = b.previousHash ∧
    ∃ k, b'.nonce = jnumAddNat b.nonce k ∧
      ∀ j, j < k →
        jsStartsWith (H (nonceInput b (jnumAddNat b.nonce j))) tp = false := by
  intro fuel
  induction fuel with
  | zero => intro b b' h; simp [powLoop] at h
  | succ f ih =>
    intro b b' h
    simp only [powLoop] at h
    by_cases hs : jsStartsWith (computeHash H b) tp = true
    · rw [if_pos hs] at h
      obtain rfl : ({ b with hash := computeHash H b } : Block) = b' := by
        simpa using h
      refine ⟨hs, ?_, rfl, rfl, rfl, rfl, 0, by simp [jnumAddNat_zero], by omega⟩
      show computeHash H b = H (hashInput { b with hash := computeHash H b })
      cases b
      rfl
    · rw [if_neg hs] at h
      obtain ⟨h1, h2, h3, h4, h5, h6, k, hk, htrail⟩ := ih _ b' h
      refine ⟨h1, h2, h3, h4, h5, h6, k + 1, ?_, ?_⟩
      · rw [hk]
        show jnumAddNat (jnumAdd1 b.nonce) k = jnumAddNat b.nonce (k + 1)
        exact jnumAddNat_add1 b.nonce k
      · intro j hj
        match j with
        | 0 =>
          rw [jnumAddNat_zero, nonceInput_self]
          simpa using hs
        | j' + 1 =>
          have ht := htrail j' (by omega)
          rw [nonceInput_update] at ht
          show jsStartsWith (H (nonceInput b (jnumAddNat b.nonce (j' + 1)))) tp = false
          rw [← jnumAddNat_add1]
          exact ht

theorem jsStartsWith_empty (s : String) : jsStartsWith s (zeros 0) = true := by
  simp [jsStartsWith, zeros]

/-! Claims -/

/-- Claim C1: for every difficulty `d ≥ 0` and every block on which
`proofOfWork` terminates, the resulting block's `hash` starts with `d`
zero characters and equals the hash recomputed from its stored fields;
all other fields are untouched, and the final nonce is reached from the
starting nonce by increments of exactly 1, every intermediate nonce's
recomputed hash having failed the prefix test. -/
theorem claim_C1_proofOfWork (H : String → String) (d : Nat) (fuel : Nat)
    (b b' : Block) (h : proofOfWork H d fuel b = some b') :
    jsStartsWith b'.hash (zeros d) = true ∧
    b'.hash = computeHash H b' ∧
    b'.index = b.index ∧ b'.timestamp = b.timestamp ∧ b'.data = b.data ∧
    b'.previousHash = b.previousHash ∧
    ∃ k, b'.nonce = jnumAddNat b.nonce k ∧
      ∀ j, j < k →
        jsStartsWith (H (nonceInput b (jnumAddNat b.nonce j))) (zeros d) = false :=
  powLoop_spec H (zeros d) fuel b b' h

/-- Witness for C1: a concrete mining run at difficulty 1 that succeeds
immediately, checked by evaluation. -/
theorem claim_C1_proofOfWork_wit :
    proofOfWork (fun s => String.append "0" s) 1 1
        ⟨.int 0, "t", none, "p", .int 0, ""⟩ =
      some ⟨.int 0, "t", none, "p", .int 0, "00|t|undefined|p|0"⟩ ∧
    jsStartsWith
      (Block.hash ⟨.int 0, "t", none, "p", .int 0, "00|t|undefined|p|0"⟩)
      (zeros 1) = true :=
  ⟨rfl, (claim_C1_proofOfWork (fun s => String.append "0" s) 1 1
    ⟨.int 0, "t", none, "p", .int 0, ""⟩
    ⟨.int 0, "t", none, "p", .int 0, "00|t|undefined|p|0"⟩ rfl).1⟩

/-- Claim C5: a successful `addBlock(d)` grows the chain by exactly one
element, the returned block is the new last element, its index is the
prior last block's index plus 1, its `previousHash` is the prior last
block's stored hash, its data is `d`, and the old chain is preserved as
a prefix. -/
theorem claim_C5_addBlock (H : String → String) (fuel : Nat)
    (bc : Blockchain) (d : Option JVal) (ts : String) (bc' : Blockchain)
    (nb : Block) (h : addBlock H fuel bc d ts = some (bc', nb)) :
    bc'.chain.length = bc.chain.length + 1 ∧
    bc'.chain = bc.chain ++ [nb] ∧
    bc'.chain.getLast? = some nb ∧
    nb.data = d ∧
    ∃ latest, bc.chain.getLast? = some latest ∧
      nb.index = jnumAdd1 latest.index ∧
      nb.previousHash = latest.hash := by
  rcases hl : bc.chain.getLast? with _ | latest
  · simp only [addBlock, hl] at h
    exact Option.noConfusion h
  · simp only [addBlock, hl] at h
    rcases hp : proofOfWork H bc.difficulty fuel
        (mkBlock H (jnumAdd1 latest.index) ts d latest.hash) with _ | mined
    · rw [hp] at h
      exact Option.noConfusion h
    · rw [hp] at h
      simp only [Option.map_some', Option.some.injEq, Prod.mk.injEq] at h
      obtain ⟨h1, h2⟩ := h
      subst h2
      subst h1
      obtain ⟨-, -, hidx, -, hdata, hprev, -⟩ :=
        powLoop_spec H (zeros bc.difficulty) fuel _ mined hp
      refine ⟨by simp, rfl, by simp, ?_, latest, rfl, ?_, ?_⟩
      · rw [hdata]; rfl
      · rw [hidx]; rfl
      · rw [hprev]; rfl

/-- Witness for C5: a concrete append at difficulty 0, checked by
evaluation. -/
theorem claim_C5_addBlock_wit :
    addBlock idHash 1 ⟨0, [⟨.int 0, "t", none, "0", .int 0, "h"⟩]⟩
        (some (.vstr "x")) "u" =
      some (⟨0, [⟨.int 0, "t", none, "0", .int 0, "h"⟩,
                 ⟨.int 1, "u", some (.vstr "x"), "h", .int 0, "1|u|\"x\"|h|0"⟩]⟩,
            ⟨.int 1, "u", some (.vstr "x"), "h", .int 0, "1|u|\"x\"|h|0"⟩) ∧
    (⟨0, [⟨.int 0, "t", none, "0", .int 0, "h"⟩,
          ⟨.int 1, "u", some (.vstr "x"), "h", .int 0, "1|u|\"x\"|h|0"⟩]⟩ :
        Blockchain).chain.getLast? =
      some ⟨.int 1, "u", some (.vstr "x"), "h", .int 0, "1|u|\"x\"|h|0"⟩ :=
  ⟨rfl, (claim_C5_addBlock idHash 1
    ⟨0, [⟨.int 0, "t", none, "0", .int 0, "h"⟩]⟩ (some (.vstr "x")) "u"
    ⟨0, [⟨.int 0, "t", none, "0", .int 0, "h"⟩,
         ⟨.int 1, "u", some (.vstr "x"), "h", .int 0, "1|u|\"x\"|h|0"⟩]⟩
    ⟨.int 1, "u", some (.vstr "x"), "h", .int 0, "1|u|\"x\"|h|0"⟩ rfl).2.2.1⟩

/-- Claim C10: the external validator on an empty record sequence, at any
difficulty and any live chain, reports `isValid = true` with empty
`invalidBlockIndices` and empty `details`. -/
theorem claim_C10_emptyChain (H : String → String) (sc : List Block)
    (d : Nat) : validateChainExt H sc d [] = ⟨true, [], []⟩ := rfl

/-- Claim C2: in both the internal and the external validation pass, a
block's `cascaded` flag is true iff some earlier block of the pass had
`blockValid = false`; once a block is invalid every later block has
`cascaded = true` and `blockValid = false`; and `invalidBlockIndices`
lists exactly the reported indices of invalid blocks in encounter
order. -/
theorem claim_C2_cascadeSemantics :
    (∀ (H : String → String) (bc : Blockchain) (k : Nat) (dt : DetailInt),
      (bc.validateChain H).details[k]? = some dt →
      ((dt.cascaded = true ↔ ∃ j, j < k ∧ ∃ dj : DetailInt,
          (bc.validateChain H).details[j]? = some dj ∧
          dj.blockValid = false) ∧
       (dt.blockValid = false → ∀ (m : Nat) (dm : DetailInt), k < m →
          (bc.validateChain H).details[m]? = some dm →
          dm.cascaded = true ∧ dm.blockValid = false))) ∧
    (∀ (H : String → String) (bc : Blockchain),
      (bc.validateChain H).invalidBlockIndices =
        ((bc.validateChain H).details.filter (fun dt => !dt.blockValid)).map
          (fun dt => dt.index)) ∧
    (∀ (H : String → String) (sc : List Block) (d : Nat) (records : List JVal)
        (k : Nat) (dt : DetailExt),
      (validateChainExt H sc d records).details[k]? = some dt →
      ((dt.cascaded = true ↔ ∃ j, j < k ∧ ∃ dj : DetailExt,
          (validateChainExt H sc d records).details[j]? = some dj ∧
          dj.blockValid = false) ∧
       (dt.blockValid = false → ∀ (m : Nat) (dm : DetailExt), k < m →
          (validateChainExt H sc d records).details[m]? = some dm →
          dm.cascaded = true ∧ dm.blockValid = false))) ∧
    (∀ (H : String → String) (sc : List Block) (d : Nat)
        (records : List JVal),
      (validateChainExt H sc d records).invalidBlockIndices =
        ((validateChainExt H sc d records).details.filter
          (fun dt => !dt.blockValid)).map (fun dt => dt.index)) := by
  refine ⟨?_, ?_, ?_, ?_⟩
  · intro H bc k dt hdt
    constructor
    · have hc := intGo_cascade H (zeros bc.difficulty) bc.chain 0 none false
        k dt hdt
      show dt.cascaded = true ↔ ∃ j, j < k ∧ ∃ dj : DetailInt,
        (validateIntGo H (zeros bc.difficulty) 0 none false
          bc.chain).details[j]? = some dj ∧ dj.blockValid = false
      rw [hc]
      simp
    · intro hbv m dm hkm hdm
      have hcasc : dm.cascaded = true :=
        (intGo_cascade H (zeros bc.difficulty) bc.chain 0 none false
          m dm hdm).mpr (Or.inr ⟨k, hkm, dt, hdt, hbv⟩)
      have hcomp := intGo_bv H (zeros bc.difficulty) bc.chain 0 none false
        m dm hdm
      refine ⟨hcasc, ?_⟩
      rw [hcomp, hcasc]
      simp
  · intro H bc
    exact intGo_indices H (zeros bc.difficulty) bc.chain 0 none false
  · intro H sc d records k dt hdt
    constructor
    · have hc := extGo_cascade H (zeros d) sc records 0 none false k dt hdt
      show dt.cascaded = true ↔ ∃ j, j < k ∧ ∃ dj : DetailExt,
        (validateExtGo H (zeros d) sc 0 none false records).details[j]? =
          some dj ∧ dj.blockValid = false
      rw [hc]
      simp
    · intro hbv m dm hkm hdm
      have hcasc : dm.cascaded = true :=
        (extGo_cascade H (zeros d) sc records 0 none false m dm hdm).mpr
          (Or.inr ⟨k, hkm, dt, hdt, hbv⟩)
      have hcomp := extGo_bv H (zeros d) sc records 0 none false m dm hdm
      refine ⟨hcasc, ?_⟩
      rw [hcomp, hcasc]
      simp
  · intro H sc d records
    exact extGo_indices H (zeros d) sc records 0 none false

/-- Witness for C2: the cascade characterisation evaluated on a concrete
one-block chain whose stored hash does not match its recomputed hash. -/
theorem claim_C2_cascadeSemantics_wit :
    (⟨.int 0, false, true, true, true, false, false⟩ : DetailInt).cascaded
        = true ↔
      ∃ j, j < 0 ∧ ∃ dj : DetailInt,
        (Blockchain.validateChain idHash
          ⟨0, [⟨.int 0, "t", none, "0", .int 0, "BAD"⟩]⟩).details[j]? =
          some dj ∧ dj.blockValid = false :=
  (claim_C2_cascadeSemantics.1 idHash
    ⟨0, [⟨.int 0, "t", none, "0", .int 0, "BAD"⟩]⟩ 0
    ⟨.int 0, false, true, true, true, false, false⟩ rfl).1

/-- Claim C4: in both validators, `isPrevValid` at position `i > 0`
compares the block's `previousHash` against the hash recomputed from the
previous block's stored fields (never the previous block's stored
`hash`), and at position 0 it compares against the sentinel `"0"`. -/
theorem claim_C4_prevCheck :
    (∀ (H : String → String) (bc : Blockchain) (k : Nat) (b p : Block)
        (dt : DetailInt), k ≠ 0 →
      bc.chain[k]? = some b → bc.chain[k-1]? = some p →
      (bc.validateChain H).details[k]? = some dt →
      dt.isPrevValid = (b.previousHash == computeHash H p)) ∧
    (∀ (H : String → String) (bc : Blockchain) (b : Block) (dt : DetailInt),
      bc.chain[0]? = some b →
      (bc.validateChain H).details[0]? = some dt →
      dt.isPrevValid = (b.previousHash == "0")) ∧
    (∀ (H : String → String) (sc : List Block) (d : Nat)
        (records : List JVal) (k : Nat) (r rp : JVal) (dt : DetailExt),
      k ≠ 0 →
      records[k]? = some r → records[k-1]? = some rp →
      (validateChainExt H sc d records).details[k]? = some dt →
      dt.isPrevValid =
        (prevHashStrOf (rawOr r) == computeHash H (prevTempOf H rp))) ∧
    (∀ (H : String → String) (sc : List Block) (d : Nat)
        (records : List JVal) (r : JVal) (dt : DetailExt),
      records[0]? = some r →
      (validateChainExt H sc d records).details[0]? = some dt →
      dt.isPrevValid = (prevHashStrOf (rawOr r) == "0")) := by
  refine ⟨?_, ?_, ?_, ?_⟩
  · intro H bc k b p dt hk0 hb hp hdt
    obtain ⟨dt', hdt', -, -, -, hprev, -⟩ :=
      intGo_flags H (zeros bc.difficulty) bc.chain 0 none false k b hb
    obtain rfl : dt' = dt := Option.some.inj (hdt'.symm.trans hdt)
    rw [hprev]
    simp only [chkPrev, Nat.zero_add]
    rw [if_neg (by simpa using hk0), if_neg hk0, hp]
  · intro H bc b dt hb hdt
    obtain ⟨dt', hdt', -, -, -, hprev, -⟩ :=
      intGo_flags H (zeros bc.difficulty) bc.chain 0 none false 0 b hb
    obtain rfl : dt' = dt := Option.some.inj (hdt'.symm.trans hdt)
    rw [hprev]
    simp [chkPrev]
  · intro H sc d records k r rp dt hk0 hr hp hdt
    obtain ⟨dt', hdt', -, -, -, hprev, -, -⟩ :=
      extGo_flags H (zeros d) sc records 0 none false k r hr
    obtain rfl : dt' = dt := Option.some.inj (hdt'.symm.trans hdt)
    rw [hprev]
    simp only [extPrevChk, Nat.zero_add]
    rw [if_neg (by simpa using hk0), if_neg hk0, hp]
    rfl
  · intro H sc d records r dt hr hdt
    obtain ⟨dt', hdt', -, -, -, hprev, -, -⟩ :=
      extGo_flags H (zeros d) sc records 0 none false 0 r hr
    obtain rfl : dt' = dt := Option.some.inj (hdt'.symm.trans hdt)
    rw [hprev]
    simp [extPrevChk]

/-- Witness for C4: the previous-hash check evaluated on a concrete
two-block chain whose second block points at a forged previous hash. -/
theorem claim_C4_prevCheck_wit :
    (⟨.int 1, false, true, false, true, false, true⟩ : DetailInt).isPrevValid
      = ((Block.previousHash ⟨.int 1, "u", none, "A", .int 0, "B"⟩) ==
          computeHash idHash ⟨.int 0, "t", none, "0", .int 0, "A"⟩) :=
  (claim_C4_prevCheck.1 idHash
    ⟨0, [⟨.int 0, "t", none, "0", .int 0, "A"⟩,
         ⟨.int 1, "u", none, "A", .int 0, "B"⟩]⟩ 1
    ⟨.int 1, "u", none, "A", .int 0, "B"⟩
    ⟨.int 0, "t", none, "0", .int 0, "A"⟩
    ⟨.int 1, false, true, false, true, false, true⟩
    (by decide) rfl rfl rfl)

/-- Counterexample to C3 as stated: `JSON.stringify` renders both `null`
and `NaN` as `"null"`, so changing a stored block's `data` field from
`null` to `NaN` — a different value — leaves the hash input unchanged:
on a valid chain produced by the constructor and `addBlock(null)`, the
tampered block's `isHashValid` stays `true` and the whole report stays
valid. -/
theorem claim_C3_counterexample :
    mkBlockchain idHash 1 0 "t0" = some ⟨0, [exG]⟩ ∧
    addBlock idHash 1 ⟨0, [exG]⟩ (some .vnull) "t1" =
      some (⟨0, [exG, exB1]⟩, exB1) ∧
    (Blockchain.validateChain idHash ⟨0, [exG, exB1]⟩).isValid = true ∧
    exB1n.data ≠ exB1.data ∧
    (Blockchain.validateChain idHash ⟨0, [exG, exB1n]⟩).details[1]?.map
      (fun dt => dt.isHashValid) = some true ∧
    (Blockchain.validateChain idHash ⟨0, [exG, exB1n]⟩).isValid = true :=
  ⟨rfl, rfl, rfl, by simp [exB1n, exB1], rfl, rfl⟩

/-- Claim C3 (amended): on a chain whose validation passes, replacing
the block at position `j` either by a block with the same stored hash
but a different serialized hash input (any single-field change of
`index`, `timestamp`, `data`, `previousHash` or `nonce` whose canonical
serialization differs — equal-serializing changes such as `data` from
`null` to `NaN` escape detection), or by a block with a different
stored `hash` and unchanged fields, makes that block's `isHashValid`
false and every later block cascaded and invalid, provided the digest
is collision-free (injective). -/
theorem claim_C3_tamper (H : String → String) (hinj : Function.Injective H)
    (bc : Blockchain) (hval : (bc.validateChain H).isValid = true)
    (j : Nat) (b b' : Block) (hj : bc.chain[j]? = some b)
    (hcase : (b'.hash = b.hash ∧ hashInput b' ≠ hashInput b) ∨
             (b'.hash ≠ b.hash ∧ hashInput b' = hashInput b)) :
    (∃ dt : DetailInt,
      (Blockchain.validateChain H
        ⟨bc.difficulty, bc.chain.set j b'⟩).details[j]? = some dt ∧
      dt.isHashValid = false) ∧
    (∀ (m : Nat) (dm : DetailInt), j < m →
      (Blockchain.validateChain H
        ⟨bc.difficulty, bc.chain.set j b'⟩).details[m]? = some dm →
      dm.cascaded = true ∧ dm.blockValid = false) := by
  have hjlen : j < bc.chain.length := by
    by_contra hlt
    push_neg at hlt
    rw [List.getElem?_eq_none hlt] at hj
    exact Option.noConfusion hj
  obtain ⟨dtj, hdtj, -, hh0, -, -, -⟩ :=
    intGo_flags H (zeros bc.difficulty) bc.chain 0 none false j b hj
  have hvalid' : (validateIntGo H (zeros bc.difficulty) 0 none false
      bc.chain).details.all (fun dt => dt.blockValid) = true := by
    rw [← intGo_isValid H (zeros bc.difficulty) bc.chain 0 none false]
    exact hval
  have hmem : dtj ∈ (validateIntGo H (zeros bc.difficulty) 0 none false
      bc.chain).details := List.mem_iff_getElem?.mpr ⟨j, hdtj⟩
  have hbvj : dtj.blockValid = true := by
    simpa using List.all_eq_true.mp hvalid' dtj hmem
  have hcomp := intGo_bv H (zeros bc.difficulty) bc.chain 0 none false
    j dtj hdtj
  have hhv : dtj.isHashValid = true := by
    rw [hcomp] at hbvj
    simp only [Bool.and_eq_true] at hbvj
    exact hbvj.1.1.1.2
  rw [hh0] at hhv
  have hHb : H (hashInput b) = b.hash := by
    simpa [chkHash, computeHash] using hhv
  have hset : (bc.chain.set j b')[j]? = some b' := by
    rw [List.getElem?_set_self]
    simp [hjlen]
  obtain ⟨dt', hdt', -, hh', -, -, -⟩ :=
    intGo_flags H (zeros bc.difficulty) (bc.chain.set j b') 0 none false
      j b' hset
  have hfalse : dt'.isHashValid = false := by
    rw [hh']
    simp only [chkHash, computeHash]
    rcases hcase with ⟨hhash, hinp⟩ | ⟨hhash, hinp⟩
    · exact beq_eq_false_iff_ne.mpr
        (fun heq => hinp (hinj (heq.trans (hhash.trans hHb.symm))))
    · exact beq_eq_false_iff_ne.mpr
        (fun heq => hhash (heq.symm.trans ((congrArg H hinp).trans hHb)))
  have hbv' : dt'.blockValid = false := by
    rw [intGo_bv H (zeros bc.difficulty) (bc.chain.set j b') 0 none false
      j dt' hdt', hfalse]
    simp
  refine ⟨⟨dt', hdt', hfalse⟩, ?_⟩
  intro m dm hm hdm
  have hcasc : dm.cascaded = true :=
    (intGo_cascade H (zeros bc.difficulty) (bc.chain.set j b') 0 none false
      m dm hdm).mpr (Or.inr ⟨j, hm, dt', hdt', hbv'⟩)
  refine ⟨hcasc, ?_⟩
  rw [intGo_bv H (zeros bc.difficulty) (bc.chain.set j b') 0 none false
    m dm hdm, hcasc]
  simp

/-- Witness for the amended C3: tampering the concrete genesis block's
stored `hash` on a valid two-block chain, evaluated concretely. -/
theorem claim_C3_tamper_wit :
    (Blockchain.validateChain idHash ⟨0, [exG, exB1]⟩).isValid = true ∧
    (∃ dt : DetailInt,
      (Blockchain.validateChain idHash ⟨0, [exGQ, exB1]⟩).details[0]? =
        some dt ∧ dt.isHashValid = false) :=
  ⟨rfl, (claim_C3_tamper idHash (fun _ _ h => h) ⟨0, [exG, exB1]⟩ rfl 0
    exG exGQ rfl (Or.inr ⟨by decide, rfl⟩)).1⟩

/-- Counterexample to C6 as stated: the document `"[]"` parses as an
empty JSON array (`JSON.parse("[]")` is an array), so `parseUpChain`
returns successfully with zero blocks even though no encoding yields a
single extractable block — refuting "any document from which zero
blocks can be extracted causes a parse error". -/
theorem claim_C6_counterexample :
    parseUpChain (fun s => if s = "[]" then some (.varr []) else none)
      (fun _ => none) "[]" = .ok [] ∧
    chainOfDoc ((fun s => if s = "[]" then some (.varr []) else none) "[]") =
      some [] ∧
    chainOfDoc ((fun _ => (none : Option JVal)) "[]") = none ∧
    txtBlocks (fun s => if s = "[]" then some (.varr []) else none) "[]" = [] :=
  ⟨rfl, rfl, rfl, rfl⟩

/-- Claim C6 (amended): `parseUpChain` fails with the
"unsupported or malformed" error iff the JSON attempt yields neither an
array nor a `chain`-array document, the YAML attempt yields neither, and
the text fallback extracts zero blocks. A structured document parsing to
an empty array is accepted with zero blocks rather than rejected; on
success the extracted records are returned whole, individual malformed
blocks being passed through to validation. -/
theorem claim_C6_parse (jsonParse yamlLoad : String → Option JVal)
    (raw : String) :
    (parseUpChain jsonParse yamlLoad raw =
        .error "Unsupported or malformed blockchain file" ↔
      chainOfDoc (jsonParse raw) = none ∧ chainOfDoc (yamlLoad raw) = none ∧
        txtBlocks jsonParse raw = []) ∧
    (∀ c, parseUpChain jsonParse yamlLoad raw = .ok c →
      chainOfDoc (jsonParse raw) = some c ∨
      (chainOfDoc (jsonParse raw) = none ∧
        chainOfDoc (yamlLoad raw) = some c) ∨
      (chainOfDoc (jsonParse raw) = none ∧ chainOfDoc (yamlLoad raw) = none ∧
        c = txtBlocks jsonParse raw)) := by
  rcases h1 : chainOfDoc (jsonParse raw) with _ | c1
  · rcases h2 : chainOfDoc (yamlLoad raw) with _ | c2
    · by_cases h3 : (txtBlocks jsonParse raw).length > 0
      · constructor
        · simp only [parseUpChain, h1, h2, if_pos h3]
          constructor
          · intro h; exact absurd h (by simp)
          · rintro ⟨-, -, h⟩
            rw [h] at h3
            simp at h3
        · intro c hc
          simp only [parseUpChain, h1, h2, if_pos h3, Except.ok.injEq] at hc
          exact Or.inr (Or.inr ⟨rfl, rfl, hc.symm⟩)
      · constructor
        · simp only [parseUpChain, h1, h2, if_neg h3]
          constructor
          · intro
            exact ⟨trivial, trivial, by simpa using h3⟩
          · intro
            trivial
        · intro c hc
          simp only [parseUpChain, h1, h2, if_neg h3] at hc
          exact absurd hc (by simp)
    · constructor
      · simp only [parseUpChain, h1, h2]
        constructor
        · intro h; exact absurd h (by simp)
        · rintro ⟨-, h, -⟩; exact Option.noConfusion h
      · intro c hc
        simp only [parseUpChain, h1, h2, Except.ok.injEq] at hc
        subst hc
        exact Or.inr (Or.inl ⟨rfl, rfl⟩)
  · constructor
    · simp only [parseUpChain, h1]
      constructor
      · intro h; exact absurd h (by simp)
      · rintro ⟨h, -, -⟩; exact Option.noConfusion h
    · intro c hc
      simp only [parseUpChain, h1, Except.ok.injEq] at hc
      subst hc
      exact Or.inl rfl

/-- Witness for C6: empty content fails all three encodings, so the
parse error is produced (spec scenario E), evaluated concretely. -/
theorem claim_C6_parse_wit :
    parseUpChain (fun _ => none) (fun _ => none) "" =
      .error "Unsupported or malformed blockchain file" :=
  (claim_C6_parse (fun _ => none) (fun _ => none) "").1.mpr ⟨rfl, rfl, rfl⟩

/-- Counterexample to C7 as stated: at difficulty 0 the required prefix
is the empty string, so a record with no hash field (coerced hash `""`)
still has `isPowValid = true`, contradicting "makes both isPowValid and
isHashValid false" for every `d ≥ 0`. -/
theorem claim_C7_counterexample :
    hashRawOf (rawOr (.vobj [])) = none ∧
    hashStrOf (rawOr (.vobj [])) = "" ∧
    (validateChainExt (fun s => String.append "h" s) [] 0
      [.vobj []]).details.map (fun dt => dt.isPowValid) = [true] :=
  ⟨rfl, rfl, rfl⟩

/-- Claim C7 (amended): the external validator is total — it returns a
report with one detail per record on every input — and a record whose
hash aliases are all missing coerces to the empty hash string, which
makes `isHashValid` false whenever the digest never returns the empty
string (true of SHA-256 hex), and makes `isPowValid` false whenever the
difficulty is at least 1; at difficulty 0 the empty prefix makes
`isPowValid` true. -/
theorem claim_C7_totalValidator :
    (∀ (H : String → String) (sc : List Block) (d : Nat)
        (records : List JVal),
      (validateChainExt H sc d records).details.length = records.length) ∧
    (∀ r : JVal, hashRawOf r = none → hashStrOf r = "") ∧
    (∀ (H : String → String) (sc : List Block) (d : Nat)
        (records : List JVal) (i : Nat) (r : JVal),
      (∀ s, H s ≠ "") → 1 ≤ d → records[i]? = some r →
      hashStrOf (rawOr r) = "" →
      ∃ dt : DetailExt,
        (validateChainExt H sc d records).details[i]? = some dt ∧
        dt.isPowValid = false ∧ dt.isHashValid = false) := by
  refine ⟨?_, ?_, ?_⟩
  · intro H sc d records
    exact validateExtGo_length H (zeros d) sc records 0 none false
  · intro r h
    simp [hashStrOf, h, orDefault, jsToString]
  · intro H sc d records i r hH hd hr hmiss
    obtain ⟨dt, hdt, -, hh, hp, -, -, -⟩ :=
      extGo_flags H (zeros d) sc records 0 none false i r hr
    refine ⟨dt, hdt, ?_, ?_⟩
    · rw [hp]
      simp only [extPowChk]
      rw [hmiss]
      rcases d with _ | d'
      · omega
      · rfl
    · rw [hh]
      simp only [extHashChk]
      rw [hmiss]
      exact beq_eq_false_iff_ne.mpr (hH _)

/-- Witness for the amended C7: a hashless record at difficulty 1 fails
both checks, evaluated concretely with a digest prefixed by `"h"`. -/
theorem claim_C7_totalValidator_wit :
    ∃ dt : DetailExt,
      (validateChainExt (fun s => String.append "h" s) [] 1
        [.vobj []]).details[0]? = some dt ∧
      dt.isPowValid = false ∧ dt.isHashValid = false :=
  claim_C7_totalValidator.2.2 (fun s => String.append "h" s) [] 1 [.vobj []]
    0 (.vobj [])
    (fun s hcon => List.noConfusion (congrArg String.data hcon))
    (by omega) rfl rfl

/-- Counterexample to C8 as stated: a foreign chain whose record 0
passes all four internal checks but fails `matchesServerGenesis` has
`blockValid = false` at position 0, and the following record is
reported `cascaded = true` — the genesis-mismatch failure does cascade
to subsequent blocks. -/
theorem claim_C8_counterexample :
    (validateChainExt idHash [⟨.int 0, "x", none, "0", .int 0, "GEN"⟩] 0
      [exR0, .vobj []]).details.map
        (fun dt => (dt.isHashValid, dt.isPowValid, dt.isPrevValid,
          dt.isIndexValid, dt.matchesServerGenesis, dt.blockValid,
          dt.cascaded)) =
      [(true, true, true, true, false, false, false),
       (false, true, false, false, true, false, true)] := rfl

/-- Claim C8 (amended): `matchesServerGenesis` is true at every
non-zero position, vacuously true at position 0 when the live chain is
empty, and otherwise equals the comparison of the record's coerced hash
string with the live genesis hash; it enters `blockValid` as a sixth
conjunct (hence effectively only at position 0), and its failure at
position 0 cascades to all later records exactly like any other failed
check. -/
theorem claim_C8_serverGenesis (H : String → String) (sc : List Block)
    (d : Nat) (records : List JVal) (k : Nat) (r : JVal) (dt : DetailExt)
    (hr : records[k]? = some r)
    (hdt : (validateChainExt H sc d records).details[k]? = some dt) :
    (k ≠ 0 → dt.matchesServerGenesis = true) ∧
    (k = 0 → sc = [] → dt.matchesServerGenesis = true) ∧
    (k = 0 → ∀ g gs, sc = g :: gs →
      dt.matchesServerGenesis = (hashStrOf (rawOr r) == g.hash)) ∧
    dt.blockValid = (!dt.cascaded && dt.isHashValid && dt.isPowValid &&
      dt.isPrevValid && dt.isIndexValid && dt.matchesServerGenesis) ∧
    (dt.blockValid = false → ∀ (m : Nat) (dm : DetailExt), k < m →
      (validateChainExt H sc d records).details[m]? = some dm →
      dm.cascaded = true) := by
  obtain ⟨dt', hdt', -, -, -, -, -, hmsg⟩ :=
    extGo_flags H (zeros d) sc records 0 none false k r hr
  obtain rfl : dt' = dt := Option.some.inj (hdt'.symm.trans hdt)
  refine ⟨?_, ?_, ?_,
    extGo_bv H (zeros d) sc records 0 none false k _ hdt, ?_⟩
  · intro hk0
    rw [hmsg]
    cases sc with
    | nil => rfl
    | cons g gs =>
      simp only [msgChk, Nat.zero_add]
      rw [if_neg (by simpa using hk0)]
  · rintro rfl rfl
    rw [hmsg]
    rfl
  · rintro rfl g gs rfl
    rw [hmsg]
    rfl
  · intro hbv m dm hm hdm
    exact (extGo_cascade H (zeros d) sc records 0 none false m dm
      hdm).mpr (Or.inr ⟨k, hm, _, hdt, hbv⟩)

/-- Witness for the amended C8: position 1 of the concrete foreign
chain has `matchesServerGenesis = true`, evaluated concretely. -/
theorem claim_C8_serverGenesis_wit :
    (⟨.nan, false, true, false, false, true, false, true⟩ :
      DetailExt).matchesServerGenesis = true :=
  (claim_C8_serverGenesis idHash [⟨.int 0, "x", none, "0", .int 0, "GEN"⟩]
    0 [exR0, .vobj []] 1 (.vobj [])
    ⟨.nan, false, true, false, false, true, false, true⟩ rfl rfl).1
    (by omega)

/-- Claim C9: alias tolerance is applied only to the record currently
being checked; the previous-block reconstruction and the previous index
read only the canonical lowercase keys. The alias-only records
`c9r0 H`, `c9r1 H` carry no canonical keys, are internally consistent
under alias reads (each `Hash` is the digest of its own alias-read
serialization, `prev_hash` links to the predecessor's alias-read digest,
the indices are 0 and 1), yet the external validator accepts position 0
and rejects position 1 — reporting index 1 invalid — because the
canonical reads of the previous record come back undefined. -/
theorem claim_C9_aliasAsymmetry (H : String → String) :
    (getProp (c9r0 H) "index" = none ∧ getProp (c9r0 H) "timestamp" = none ∧
     getProp (c9r0 H) "data" = none ∧
     getProp (c9r0 H) "previousHash" = none ∧
     getProp (c9r0 H) "nonce" = none ∧ getProp (c9r0 H) "hash" = none ∧
     getProp (c9r1 H) "index" = none ∧ getProp (c9r1 H) "timestamp" = none ∧
     getProp (c9r1 H) "data" = none ∧
     getProp (c9r1 H) "previousHash" = none ∧
     getProp (c9r1 H) "nonce" = none ∧ getProp (c9r1 H) "hash" = none) ∧
    (hashStrOf (c9r0 H) = computeHash H (tempOf H (c9r0 H)) ∧
     hashStrOf (c9r1 H) = computeHash H (tempOf H (c9r1 H)) ∧
     prevHashStrOf (c9r1 H) = computeHash H (tempOf H (c9r0 H)) ∧
     bIndexOf (c9r1 H) = jnumAdd1 (bIndexOf (c9r0 H)) ∧
     prevHashStrOf (c9r0 H) = "0") ∧
    prevIndexOf (c9r0 H) = .nan ∧
    (∃ dt0 : DetailExt,
      (validateChainExt H [] 0 [c9r0 H, c9r1 H]).details[0]? = some dt0 ∧
      dt0.blockValid = true) ∧
    (∃ dt1 : DetailExt,
      (validateChainExt H [] 0 [c9r0 H, c9r1 H]).details[1]? = some dt1 ∧
      dt1.isIndexValid = false ∧ dt1.blockValid = false) ∧
    (validateChainExt H [] 0 [c9r0 H, c9r1 H]).invalidBlockIndices =
      [.int 1] := by
  have e0h : extHashChk H (rawOr (c9r0 H)) = true := by
    show (computeHash H (tempOf H (rawOr (c9r0 H))) ==
      hashStrOf (rawOr (c9r0 H))) = true
    have heq : hashStrOf (rawOr (c9r0 H)) =
        computeHash H (tempOf H (rawOr (c9r0 H))) := rfl
    rw [heq]
    exact beq_self_eq_true _
  have e1h : extHashChk H (rawOr (c9r1 H)) = true := by
    show (computeHash H (tempOf H (rawOr (c9r1 H))) ==
      hashStrOf (rawOr (c9r1 H))) = true
    have heq : hashStrOf (rawOr (c9r1 H)) =
        computeHash H (tempOf H (rawOr (c9r1 H))) := rfl
    rw [heq]
    exact beq_self_eq_true _
  obtain ⟨dt0, hdt0, hidx0, hh0, hp0, hpr0, hiv0, hm0⟩ :=
    extGo_flags H (zeros 0) [] [c9r0 H, c9r1 H] 0 none false 0 (c9r0 H) rfl
  obtain ⟨dt1, hdt1, hidx1, hh1, hp1, hpr1, hiv1, hm1⟩ :=
    extGo_flags H (zeros 0) [] [c9r0 H, c9r1 H] 0 none false 1 (c9r1 H) rfl
  have hc0 : dt0.cascaded = false := by
    cases h' : dt0.cascaded
    · rfl
    · obtain h | ⟨j, hj, -⟩ := (extGo_cascade H (zeros 0) []
        [c9r0 H, c9r1 H] 0 none false 0 dt0 hdt0).mp h'
      · exact absurd h (by simp)
      · omega
  have hh0' : dt0.isHashValid = true := by rw [hh0]; exact e0h
  have hp0' : dt0.isPowValid = true := by
    rw [hp0]
    simp only [extPowChk]
    exact jsStartsWith_empty _
  have hpr0' : dt0.isPrevValid = true := by rw [hpr0]; rfl
  have hiv0' : dt0.isIndexValid = true := by rw [hiv0]; rfl
  have hm0' : dt0.matchesServerGenesis = true := by rw [hm0]; rfl
  have hbv0 : dt0.blockValid = true := by
    rw [extGo_bv H (zeros 0) [] [c9r0 H, c9r1 H] 0 none false 0 dt0 hdt0,
      hc0, hh0', hp0', hpr0', hiv0', hm0']
    rfl
  have hiv1f : dt1.isIndexValid = false := by rw [hiv1]; rfl
  have hbv1 : dt1.blockValid = false := by
    rw [extGo_bv H (zeros 0) [] [c9r0 H, c9r1 H] 0 none false 1 dt1 hdt1,
      hiv1f]
    simp
  have hidx1' : dt1.index = JNum.int 1 := by rw [hidx1]; rfl
  have hlen : (validateExtGo H (zeros 0) [] 0 none false
      [c9r0 H, c9r1 H]).details.length = 2 := by
    simpa using validateExtGo_length H (zeros 0) [] [c9r0 H, c9r1 H]
      0 none false
  have hdet : (validateExtGo H (zeros 0) [] 0 none false
      [c9r0 H, c9r1 H]).details = [dt0, dt1] := by
    apply List.ext_getElem?
    intro i
    match i with
    | 0 => rw [hdt0]; rfl
    | 1 => rw [hdt1]; rfl
    | n + 2 =>
      rw [List.getElem?_eq_none (by rw [hlen]; omega)]
      rfl
  refine ⟨⟨rfl, rfl, rfl, rfl, rfl, rfl, rfl, rfl, rfl, rfl, rfl, rfl⟩,
    ⟨rfl, rfl, rfl, rfl, rfl⟩, rfl,
    ⟨dt0, hdt0, hbv0⟩, ⟨dt1, hdt1, hiv1f, hbv1⟩, ?_⟩
  show (validateExtGo H (zeros 0) [] 0 none false
    [c9r0 H, c9r1 H]).invalidBlockIndices = [.int 1]
  rw [extGo_indices H (zeros 0) [] [c9r0 H, c9r1 H] 0 none false, hdet]
  simp [hbv0, hbv1, hidx1']
